import Mathlib

/-!
Verification of the staleness-detection scanner in `src/tombstone/tombstone.py`.

The filesystem is modelled as a finite tree of directories and files, each
carrying a modification time (an integer number of seconds).  Paths are lists
of component names, taken relative to the monitored base directory, which sits
at the root of the tree (path `[]`).  All functions below are direct
translations of the Python code; line numbers in the comments refer to
`tombstone.py`.
-/

namespace Tombstone

abbrev Path := List String

/-- A filesystem tree: a node is either a directory with named children or a
plain file; both carry a modification time (`os.path.getmtime`). -/
inductive FSTree : Type where
  | dir (mtime : Int) (children : List (String × FSTree))
  | file (mtime : Int)

instance : Inhabited FSTree := ⟨.dir 0 []⟩

def FSTree.mtime : FSTree → Int
  | .dir m _ => m
  | .file m => m

def FSTree.isDir : FSTree → Bool
  | .dir _ _ => true
  | .file _ => false

def FSTree.children : FSTree → List (String × FSTree)
  | .dir _ cs => cs
  | .file _ => []

/-- First child with the given name (real directories have unique names). -/
def lookupChild : List (String × FSTree) → String → Option FSTree
  | [], _ => none
  | (m, c) :: rest, n => if m = n then some c else lookupChild rest n

/-- Follow a path from a node down the tree. -/
def resolve : FSTree → Path → Option FSTree
  | t, [] => some t
  | .file _, _ :: _ => none
  | .dir _ cs, n :: rest =>
    match lookupChild cs n with
    | none => none
    | some c => resolve c rest

/-- `os.path.exists`. -/
def pathExists (t : FSTree) (p : Path) : Bool :=
  (resolve t p).isSome

/-- `os.path.isdir`. -/
def isdir (t : FSTree) (p : Path) : Bool :=
  match resolve t p with
  | some (.dir _ _) => true
  | _ => false

/-- `os.path.getmtime`; a missing path has no mtime (Python raises there, the
code never queries a missing path, we return a junk value). -/
def getmtime (t : FSTree) (p : Path) : Int :=
  match resolve t p with
  | some u => u.mtime
  | none => 0

/-- `os.listdir`; `[]` on a non-directory (Python raises there). -/
def listdir (t : FSTree) (p : Path) : List String :=
  match resolve t p with
  | some (.dir _ cs) => cs.map Prod.fst
  | _ => []

/-- The subtree rooted at a path (the code only walks paths that resolve). -/
def subtreeAt (t : FSTree) (p : Path) : FSTree :=
  (resolve t p).getD (.dir 0 [])

/-- `leadsTo p q` holds when `p` is an initial segment of `q`, i.e. the
directory at `p` is `q` itself or one of its ancestors. -/
def leadsTo : Path → Path → Bool
  | [], _ => true
  | _ :: _, [] => false
  | a :: ps, b :: qs => a = b && leadsTo ps qs

/-- Replace the first child with the given name, appending when absent. -/
def setChild : List (String × FSTree) → String → FSTree → List (String × FSTree)
  | [], n, t => [(n, t)]
  | (m, c) :: rest, n, t => if m = n then (n, t) :: rest else (m, c) :: setChild rest n t

/-- Rewrite the node at a path with `g`; unchanged when the path is missing. -/
def modifyAt : FSTree → Path → (FSTree → FSTree) → FSTree
  | t, [], g => g t
  | .file m, _ :: _, _ => .file m
  | .dir m cs, n :: rest, g =>
    match lookupChild cs n with
    | none => .dir m cs
    | some c => .dir m (setChild cs n (modifyAt c rest g))

/-- `open(os.path.join(p, f), 'w')` on a directory node: the sentinel file is
created with the current time as mtime and the directory's own mtime is
refreshed (the new-file case is the one the scanner ever exercises: marked
directories were filtered for not containing the sentinel). -/
def createFile (fs : FSTree) (p : Path) (f : String) (ts : Int) : FSTree :=
  modifyAt fs p (fun t =>
    match t with
    | .dir _ cs => .dir ts (setChild cs f (.file ts))
    | .file m => .file m)

/-- Line 170: the immediate subdirectories of `d`, as paths. -/
def subdirsOf (fs : FSTree) (d : Path) : List Path :=
  ((listdir fs d).filter (fun x => isdir fs (d ++ [x]))).map (fun x => d ++ [x])

/-- Lines 161-182: the breadth-first `while` loop of `get_dirs_list`.
`n` counts the levels still to expand (`levels - dlevel`), so the Python test
`dlevel == levels` after the increment is `n = 0` here. -/
def expandLevels (fs : FSTree) : Nat → List Path → Bool → List Path → List Path
  | 0, _, _, outlist => outlist
  | n + 1, dlist, continuous, outlist =>
    let ilist := dlist.flatMap (subdirsOf fs)
    if ilist = [] then outlist
    else
      expandLevels fs n ilist continuous
        (if continuous then outlist ++ ilist else if n = 0 then ilist else outlist)

/-- One element of the monitor list: `{'name': ..., 'age': ...}` (line 186).
Straight after `get_dirs_list` the `age` field still holds the raw mtime;
`update` converts it to an age. -/
structure Entry where
  name : Path
  age : Int
deriving DecidableEq, Repr

/-- Lines 150-188: `get_dirs_list`.  A sentinel filename of `none` disables
the filtering (lines 184-185). -/
def get_dirs_list (filename : Option String) (fs : FSTree)
    (directories : List Path) (levels : Nat) (continuous : Bool) : List Entry :=
  let outlist := expandLevels fs levels directories continuous []
  let outlist :=
    match filename with
    | some f => outlist.filter (fun x => !pathExists fs (x ++ [f]))
    | none => outlist
  outlist.map (fun x => { name := x, age := getmtime fs x })

mutual
/-- Lines 131-148: `walk_to_depth`.  Each yielded frame is the child list of
one visited root (the walk separates it into `dirs` and `files`; `update`
only reads mtimes from it, so the frame keeps the children with their
subtrees).  A root whose level relative to the start is `depth` is yielded
but pruned: its children are listed in its frame yet never become roots. -/
def walkTree : FSTree → Nat → List (List (String × FSTree))
  | .file _, _ => []
  | .dir _ cs, depth =>
    cs :: (match depth with
           | 0 => []
           | d + 1 => walkKids cs d)

/-- The recursive part of the walk: each directory child becomes a root. -/
def walkKids : List (String × FSTree) → Nat → List (List (String × FSTree))
  | [], _ => []
  | (_, c) :: rest, d => walkTree c d ++ walkKids rest d
end

/-- Lines 253-254 and 260-261: keep the smaller of the running age and
`timestamp - mtime`. -/
def minAgeStep (ts a m : Int) : Int :=
  if ts - m < a then ts - m else a

/-- Lines 251-254: fold the subdirectory mtimes of one frame into the age. -/
def dirAges (ts acc : Int) (cs : List (String × FSTree)) : Int :=
  (cs.filter (fun c => c.2.isDir)).foldl (fun a c => minAgeStep ts a c.2.mtime) acc

/-- Lines 257-261: fold the file mtimes of one frame into the age. -/
def fileAges (ts acc : Int) (cs : List (String × FSTree)) : Int :=
  (cs.filter (fun c => !c.2.isDir)).foldl (fun a c => minAgeStep ts a c.2.mtime) acc

/-- Lines 248-261, body of the walk loop for one frame: subdirectories
always, files only under the file-inspection flag. -/
def frameAge (checkFiles : Bool) (ts acc : Int) (cs : List (String × FSTree)) : Int :=
  let a := dirAges ts acc cs
  if checkFiles then fileAges ts a cs else a

/-- Lines 246-261: the refined freshness age of one candidate, starting from
`timestamp - getmtime(candidate)`. -/
def candidateAge (checkFiles : Bool) (depth : Nat) (ts : Int) (t : FSTree) (startAge : Int) : Int :=
  (walkTree t depth).foldl (frameAge checkFiles ts) startAge

/-- The configuration fields of a `Tombstone` object that `update` reads. -/
structure Config where
  filename : Option String
  level : Nat
  depth : Nat
  threshold : Int
  files : Bool

/-- The mutable `monitor` / `static` fields of a `Tombstone` object. -/
structure TState where
  monitor : Option (List Entry)
  static : Option (List Entry)
deriving DecidableEq, Repr

/-- The value `update` returns: at level 0 a list holding the single pair
`[directory, age]` (line 236), otherwise the list of created tombstone
paths (line 284). -/
inductive UpdRet where
  | pairs (l : List (Path × Int))
  | tombs (l : List Path)
deriving DecidableEq, Repr

/-- Whether the returned list is empty, in either shape. -/
def UpdRet.isEmptyRet : UpdRet → Bool
  | .pairs l => l.isEmpty
  | .tombs l => l.isEmpty

/-- Return value, object state and filesystem after one `update` call. -/
structure UpdResult where
  ret : UpdRet
  state : TState
  fs : FSTree

/-- Lines 263-264: `self.monitor.sort(key=lambda x: x['age'])` — a stable
ascending sort on the `age` field. -/
def sortMonitor (l : List Entry) : List Entry :=
  List.insertionSort (fun a b => a.age ≤ b.age) l

/-- Line 267: the entries whose age strictly exceeds the threshold. -/
def staticOf (threshold : Int) (mon : List Entry) : List Entry :=
  mon.filter (fun x => threshold < x.age)

/-- Lines 239-261: the monitor list — `get_dirs_list` from the base directory
(path `[]`), mtimes turned into ages, then refined by the bounded walk. -/
def computeMonitor (cfg : Config) (fs : FSTree) (ts : Int) : List Entry :=
  let mon := get_dirs_list cfg.filename fs [[]] cfg.level false
  let mon := mon.map (fun e => { e with age := ts - e.age })
  mon.map (fun e =>
    { e with age := candidateAge cfg.files cfg.depth ts (subtreeAt fs e.name) e.age })

/-- Lines 271-278: the marking loop.  `canWrite` models the environment: when
`open` fails (permissions, vanished directory) the `OSError` propagates out of
the plain `with open(...)` — there is no `try` in `update` — so the loop stops
at the first failure and the directories after it are never attempted.
Returns the created tombstone paths, the filesystem, and the first failing
tombstone path if any. -/
def markRun (canWrite : Path → Bool) (f : String) (ts : Int) :
    FSTree → List Entry → List Path × FSTree × Option Path
  | fs, [] => ([], fs, none)
  | fs, d :: rest =>
    let tombname := d.name ++ [f]
    if canWrite tombname then
      let fs1 := createFile fs d.name f ts
      let r := markRun canWrite f ts fs1 rest
      (tombname :: r.1, r.2)
    else ([], fs, some tombname)

/-- Lines 225-284: `update`.  The pure model takes the filesystem and the
reference timestamp (line 232) as arguments and assumes every sentinel write
succeeds (`markRun` with an always-true `canWrite`); obituary messages are
pure strings handed to an external transport and carry no information the
claims mention, so they are not materialised. -/
def update (cfg : Config) (fs : FSTree) (st : TState) (ts : Int)
    (make_tombstones : Bool) : UpdResult :=
  if cfg.level = 0 then
    ⟨.pairs [([], ts - getmtime fs [])], st, fs⟩
  else
    let mon := sortMonitor (computeMonitor cfg fs ts)
    let stat := staticOf cfg.threshold mon
    let marked :=
      if make_tombstones then
        match cfg.filename with
        | some f => markRun (fun _ => true) f ts fs stat
        | none => ([], fs, none)
      else ([], fs, none)
    ⟨.tombs marked.1, ⟨some mon, some stat⟩, marked.2.1⟩

/-- The attribute slots of a `Tombstone` object (lines 10-37). -/
structure TombstoneObj where
  directoryF : Option Path
  levelF : Int
  depthF : Int
  thresholdF : Option Int
  filenameF : Option String
deriving DecidableEq, Repr

/-- Lines 10-37: `__init__` — plain attribute assignment, no validation, so
it cannot raise. -/
def initTombstone (directory : Option Path) (level depth : Int)
    (threshold : Option Int) : Except String TombstoneObj :=
  .ok ⟨directory, level, depth, threshold, some "download_complete.txt"⟩

/-- Lines 109-113: the `threshold` property setter. -/
def setThreshold (t : TombstoneObj) (v : Int) : Except String TombstoneObj :=
  if v < 0 then .error "Invalid threshold"
  else .ok { t with thresholdF := some v }

/-- Lines 53-57: the `directory` property setter. -/
def setDirectory (fs : FSTree) (t : TombstoneObj) (v : Path) : Except String TombstoneObj :=
  if isdir fs v then .ok { t with directoryF := some v }
  else .error "Not a directory"

/-- A candidate directory of mtime `t0` holding a chain of directories of
mtime `t0`, with a single file of mtime `t1` at level `k + 1` below the
candidate (level 1 when `k = 0`). -/
def chainWithFile : Nat → Int → Int → FSTree
  | 0, t0, t1 => .dir t0 [("data", .file t1)]
  | k + 1, t0, t1 => .dir t0 [("sub", chainWithFile k t0 t1)]

/-- A chain of directories of mtime `t0` with a single directory of mtime `x`
at level `n` below the root of the chain (the root itself when `n = 0`). -/
def nestDir : Nat → Int → Int → FSTree
  | 0, _, x => .dir x []
  | n + 1, t0, x => .dir t0 [("sub", nestDir n t0 x)]

/-- Whether a setup step completed without raising. -/
def isOkE : Except String TombstoneObj → Bool
  | .ok _ => true
  | .error _ => false

/-- Claim C10: with level 0, `update` immediately returns the single pair
`[directory, now - mtime(directory)]` and leaves the monitor field, the
static field and the filesystem unchanged, regardless of the
`make_tombstones` argument, the threshold and the sentinel filename. -/
theorem C10_level0_frame (fn : Option String) (dp : Nat) (thr : Int) (fl : Bool)
    (fs : FSTree) (st : TState) (ts : Int) (mk : Bool) :
    update ⟨fn, 0, dp, thr, fl⟩ fs st ts mk =
      ⟨.pairs [([], ts - getmtime fs [])], st, fs⟩ := by
  simp [update]

/-- Claim C7, counterexample: at level 0 on a root of age 50 with threshold
100 and marking enabled, `update` does not return an empty result — it
returns the one-element list `[[root, 50]]` (the filesystem is indeed left
unchanged). -/
theorem C7_level0_counterexample :
    (update ⟨some "t", 0, 0, 100, false⟩ (.dir 950 []) ⟨none, none⟩ 1000 true).ret.isEmptyRet
        = false ∧
    (update ⟨some "t", 0, 0, 100, false⟩ (.dir 950 []) ⟨none, none⟩ 1000 true).ret
        = .pairs [([], 50)] ∧
    (update ⟨some "t", 0, 0, 100, false⟩ (.dir 950 []) ⟨none, none⟩ 1000 true).fs
        = .dir 950 [] := by
  exact ⟨rfl, rfl, rfl⟩

/-- Claim C7 as amended: with level 0, a root whose age is below the
threshold and marking enabled, `update` returns the single pair
`[directory, age]` (not an empty list) and creates no sentinel file. -/
theorem C7_level0_returns_root_pair (cfg : Config) (fs : FSTree) (st : TState)
    (ts : Int) (hL : cfg.level = 0) (_hage : ts - getmtime fs [] < cfg.threshold) :
    (update cfg fs st ts true).ret = .pairs [([], ts - getmtime fs [])] ∧
    (update cfg fs st ts true).fs = fs := by
  simp [update, hL]

/-- Witness for `C7_level0_returns_root_pair` at a concrete input. -/
theorem C7_level0_returns_root_pair_witness :
    ((⟨some "t", 0, 0, 100, false⟩ : Config).level = 0 ∧
      (1000 : Int) - getmtime (.dir 950 []) [] < (⟨some "t", 0, 0, 100, false⟩ : Config).threshold) ∧
    ((update ⟨some "t", 0, 0, 100, false⟩ (.dir 950 []) ⟨none, none⟩ 1000 true).ret
        = .pairs [([], 1000 - getmtime (.dir 950 []) [])] ∧
      (update ⟨some "t", 0, 0, 100, false⟩ (.dir 950 []) ⟨none, none⟩ 1000 true).fs
        = .dir 950 []) :=
  ⟨⟨rfl, by decide⟩,
    C7_level0_returns_root_pair ⟨some "t", 0, 0, 100, false⟩ (.dir 950 []) ⟨none, none⟩ 1000
      rfl (by decide)⟩

/-- Claim C8, evaluation at the failing input: with two monitored directories
of ages 900 and 100, the monitor list stored by `update` is
`[age 100, age 900]` — ascending age, so the entry with the largest freshness
age comes last, not first.  The code's own comment (line 263, "Sort with
oldest first") and the spec both call for the oldest entry first. -/
theorem C8_sort_eval :
    (update ⟨some "t", 1, 0, 50, false⟩
        (.dir 0 [("a", .dir 100 []), ("b", .dir 900 [])]) ⟨none, none⟩ 1000 false).state.monitor
      = some [⟨["b"], 100⟩, ⟨["a"], 900⟩] := by
  decide

/-- Claim C9, counterexample: the constructor performs no validation — it
accepts a negative threshold together with a path that is not a directory in
the filesystem, raising no error at setup time. -/
theorem C9_init_unvalidated :
    isOkE (initTombstone (some ["nowhere"]) 1 0 (some (-5))) = true ∧
    ((-5 : Int) < 0) ∧ isdir (.dir 0 []) ["nowhere"] = false := by
  exact ⟨rfl, by decide, rfl⟩

/-- Claim C9 as amended: validation happens only in the property setters —
the threshold setter raises exactly on a negative value, the directory setter
raises exactly on a non-directory, and the constructor always succeeds,
storing its arguments unvalidated. -/
theorem C9_setters_validate (fs : FSTree) (t : TombstoneObj) (v : Int) (p : Path)
    (d : Option Path) (lv dp : Int) (th : Option Int) :
    (isOkE (setThreshold t v) = true ↔ 0 ≤ v) ∧
    (isOkE (setDirectory fs t p) = true ↔ isdir fs p = true) ∧
    isOkE (initTombstone d lv dp th) = true := by
  refine ⟨?_, ?_, rfl⟩
  · simp only [setThreshold]
    split
    · simp only [isOkE]
      constructor
      · intro h; exact absurd h (by simp)
      · intro h; omega
    · simp only [isOkE]
      constructor
      · intro _; omega
      · intro _; trivial
  · simp only [setDirectory]
    split
    · simp only [isOkE]; simp_all
    · simp only [isOkE]; simp_all

/-- Claim C6, evaluation at the failing input: the marking loop of `update`
has no per-directory error handling — when creating the sentinel in the
first static directory fails, the uncaught exception stops the loop, so the
second static directory is never marked even though its sentinel was
perfectly writable.  -/
theorem C6_marking_abort_eval :
    (markRun (fun p => decide (p ≠ ["a", "t"])) "t" 50
        (.dir 0 [("a", .dir 0 []), ("b", .dir 0 [])])
        [⟨["a"], 500⟩, ⟨["b"], 700⟩]).1 = [] ∧
    (markRun (fun p => decide (p ≠ ["a", "t"])) "t" 50
        (.dir 0 [("a", .dir 0 []), ("b", .dir 0 [])])
        [⟨["a"], 500⟩, ⟨["b"], 700⟩]).2.2 = some ["a", "t"] ∧
    (fun p => decide (p ≠ ["a", "t"])) ["b", "t"] = true := by
  refine ⟨rfl, rfl, by decide⟩

/-- Claim C4, counterexample: with inspection depth D = 0, the two
filesystems below differ only in the mtime of the directory at level
D + 1 = 1 beneath the candidate `c`, yet the candidate's computed freshness
age changes from 90 to 50 — a modification at level D + 1 does affect the
age (the walk yields the pruned root's children before stopping). -/
theorem C4_depth_counterexample :
    (update ⟨some "t", 1, 0, 0, false⟩
        (.dir 0 [("c", .dir 10 [("a", .dir 10 [])])]) ⟨none, none⟩ 100 false).state.monitor
      = some [⟨["c"], 90⟩] ∧
    (update ⟨some "t", 1, 0, 0, false⟩
        (.dir 0 [("c", .dir 10 [("a", .dir 50 [])])]) ⟨none, none⟩ 100 false).state.monitor
      = some [⟨["c"], 50⟩] := by
  decide

theorem walkTree_file (m : Int) (d : Nat) : walkTree (.file m) d = [] := by
  simp [walkTree]

theorem walkTree_dir_zero (m : Int) (cs : List (String × FSTree)) :
    walkTree (.dir m cs) 0 = [cs] := by
  simp [walkTree]

theorem walkTree_dir_succ (m : Int) (cs : List (String × FSTree)) (d : Nat) :
    walkTree (.dir m cs) (d + 1) = cs :: walkKids cs d := by
  simp [walkTree]

theorem walkKids_nil (d : Nat) : walkKids [] d = [] := by
  simp [walkKids]

theorem walkKids_cons (n : String) (c : FSTree) (rest : List (String × FSTree)) (d : Nat) :
    walkKids ((n, c) :: rest) d = walkTree c d ++ walkKids rest d := by
  simp [walkKids]

theorem chain_mtime (k : Nat) (t0 t1 : Int) : (chainWithFile k t0 t1).mtime = t0 := by
  cases k <;> rfl

theorem chain_isDir (k : Nat) (t0 t1 : Int) : (chainWithFile k t0 t1).isDir = true := by
  cases k <;> rfl

theorem nest_isDir (n : Nat) (t0 x : Int) : (nestDir n t0 x).isDir = true := by
  cases n <;> rfl

theorem chain_fold_files (ts t0 t1 : Int) (h : t0 < t1) :
    ∀ k d, k + 1 ≤ d →
      (walkTree (chainWithFile k t0 t1) d).foldl (frameAge true ts) (ts - t0) = ts - t1 := by
  intro k
  induction k with
  | zero =>
    intro d hd
    obtain ⟨e, rfl⟩ : ∃ e, d = e + 1 := ⟨d - 1, by omega⟩
    simp [chainWithFile, walkTree_dir_succ, walkKids_cons, walkKids_nil, walkTree_file,
      frameAge, dirAges, fileAges, FSTree.isDir, FSTree.mtime, minAgeStep]
    omega
  | succ k ih =>
    intro d hd
    obtain ⟨e, rfl⟩ : ∃ e, d = e + 1 := ⟨d - 1, by omega⟩
    rw [show chainWithFile (k+1) t0 t1 = .dir t0 [("sub", chainWithFile k t0 t1)] from rfl]
    rw [walkTree_dir_succ, walkKids_cons, walkKids_nil, List.append_nil, List.foldl_cons]
    have hfr : frameAge true ts (ts - t0) [("sub", chainWithFile k t0 t1)] = ts - t0 := by
      simp [frameAge, dirAges, fileAges, chain_isDir, chain_mtime, minAgeStep]
    rw [hfr]
    exact ih e (by omega)

theorem chain_fold_nofiles (ts t0 t1 : Int) :
    ∀ k d, (walkTree (chainWithFile k t0 t1) d).foldl (frameAge false ts) (ts - t0) = ts - t0 := by
  intro k
  induction k with
  | zero =>
    intro d
    cases d with
    | zero =>
      simp [chainWithFile, walkTree_dir_zero, frameAge, dirAges, FSTree.isDir]
    | succ e =>
      simp [chainWithFile, walkTree_dir_succ, walkKids_cons, walkKids_nil, walkTree_file,
        frameAge, dirAges, FSTree.isDir]
  | succ k ih =>
    intro d
    have hfr : frameAge false ts (ts - t0) [("sub", chainWithFile k t0 t1)] = ts - t0 := by
      simp [frameAge, dirAges, chain_isDir, chain_mtime, minAgeStep]
    cases d with
    | zero =>
      rw [show chainWithFile (k+1) t0 t1 = .dir t0 [("sub", chainWithFile k t0 t1)] from rfl]
      rw [walkTree_dir_zero, List.foldl_cons, hfr, List.foldl_nil]
    | succ e =>
      rw [show chainWithFile (k+1) t0 t1 = .dir t0 [("sub", chainWithFile k t0 t1)] from rfl]
      rw [walkTree_dir_succ, walkKids_cons, walkKids_nil, List.append_nil, List.foldl_cons, hfr]
      exact ih e

theorem frameAge_single_dir (b : Bool) (ts acc : Int) (nm : String) (u : FSTree)
    (hu : u.isDir = true) :
    frameAge b ts acc [(nm, u)] = minAgeStep ts acc u.mtime := by
  cases b <;> simp [frameAge, dirAges, fileAges, hu]

theorem minAgeStep_refl (ts t0 : Int) : minAgeStep ts (ts - t0) t0 = ts - t0 := by
  simp [minAgeStep]

theorem minAgeStep_newer (ts t0 x : Int) (h : t0 ≤ x) :
    minAgeStep ts (ts - t0) x = ts - x := by
  unfold minAgeStep
  split <;> omega

theorem nest_fold_below (ts t0 x : Int) :
    ∀ d, (walkTree (nestDir (d + 2) t0 x) d).foldl (frameAge false ts) (ts - t0) = ts - t0 := by
  intro d
  induction d with
  | zero =>
    rw [show nestDir 2 t0 x = .dir t0 [("sub", nestDir 1 t0 x)] from rfl]
    rw [walkTree_dir_zero, List.foldl_cons, List.foldl_nil]
    rw [frameAge_single_dir false ts (ts - t0) "sub" _ (nest_isDir 1 t0 x)]
    rw [show (nestDir 1 t0 x).mtime = t0 from rfl, minAgeStep_refl]
  | succ d ih =>
    rw [show nestDir (d + 1 + 2) t0 x = .dir t0 [("sub", nestDir (d + 2) t0 x)] from rfl]
    rw [walkTree_dir_succ, walkKids_cons, walkKids_nil, List.append_nil, List.foldl_cons]
    rw [frameAge_single_dir false ts (ts - t0) "sub" _ (nest_isDir (d + 2) t0 x)]
    rw [show (nestDir (d + 2) t0 x).mtime = t0 from rfl, minAgeStep_refl]
    exact ih

theorem nest_fold_at_succ (ts t0 x : Int) (h : t0 ≤ x) :
    ∀ d, (walkTree (nestDir (d + 1) t0 x) d).foldl (frameAge false ts) (ts - t0) = ts - x := by
  intro d
  induction d with
  | zero =>
    rw [show nestDir 1 t0 x = .dir t0 [("sub", nestDir 0 t0 x)] from rfl]
    rw [walkTree_dir_zero, List.foldl_cons, List.foldl_nil]
    rw [frameAge_single_dir false ts (ts - t0) "sub" _ (nest_isDir 0 t0 x)]
    rw [show (nestDir 0 t0 x).mtime = x from rfl, minAgeStep_newer ts t0 x h]
  | succ d ih =>
    rw [show nestDir (d + 1 + 1) t0 x = .dir t0 [("sub", nestDir (d + 1) t0 x)] from rfl]
    rw [walkTree_dir_succ, walkKids_cons, walkKids_nil, List.append_nil, List.foldl_cons]
    rw [frameAge_single_dir false ts (ts - t0) "sub" _ (nest_isDir (d + 1) t0 x)]
    rw [show (nestDir (d + 1) t0 x).mtime = t0 from rfl, minAgeStep_refl]
    exact ih

theorem nest_fold_within (ts t0 x : Int) (h : t0 ≤ x) :
    ∀ n d, 1 ≤ n → n ≤ d →
      (walkTree (nestDir n t0 x) d).foldl (frameAge false ts) (ts - t0) = ts - x := by
  intro n
  induction n with
  | zero => intro d h1 _; omega
  | succ n ih =>
    intro d _ hd
    obtain ⟨e, rfl⟩ : ∃ e, d = e + 1 := ⟨d - 1, by omega⟩
    cases n with
    | zero =>
      rw [show nestDir 1 t0 x = .dir t0 [("sub", nestDir 0 t0 x)] from rfl]
      rw [walkTree_dir_succ, walkKids_cons, walkKids_nil, List.append_nil, List.foldl_cons]
      rw [frameAge_single_dir false ts (ts - t0) "sub" _ (nest_isDir 0 t0 x)]
      rw [show (nestDir 0 t0 x).mtime = x from rfl, minAgeStep_newer ts t0 x h]
      rw [show nestDir 0 t0 x = .dir x [] from rfl]
      cases e with
      | zero => rw [walkTree_dir_zero, List.foldl_cons, List.foldl_nil]
                simp [frameAge, dirAges, fileAges]
      | succ e => rw [walkTree_dir_succ, walkKids_nil, List.foldl_cons, List.foldl_nil]
                  simp [frameAge, dirAges, fileAges]
    | succ n =>
      rw [show nestDir (n + 1 + 1) t0 x = .dir t0 [("sub", nestDir (n + 1) t0 x)] from rfl]
      rw [walkTree_dir_succ, walkKids_cons, walkKids_nil, List.append_nil, List.foldl_cons]
      rw [frameAge_single_dir false ts (ts - t0) "sub" _ (nest_isDir (n + 1) t0 x)]
      rw [show (nestDir (n + 1) t0 x).mtime = t0 from rfl, minAgeStep_refl]
      exact ih e (by omega) (by omega)

theorem update_state_ne0 (cfg : Config) (fs : FSTree) (st : TState) (ts : Int) (mk : Bool)
    (h : ¬cfg.level = 0) :
    (update cfg fs st ts mk).state =
      ⟨some (sortMonitor (computeMonitor cfg fs ts)),
        some (staticOf cfg.threshold (sortMonitor (computeMonitor cfg fs ts)))⟩ := by
  unfold update
  rw [if_neg h]

theorem update_ret_mark (cfg : Config) (fs : FSTree) (st : TState) (ts : Int) (f : String)
    (h : ¬cfg.level = 0) (hf : cfg.filename = some f) :
    (update cfg fs st ts true).ret =
      .tombs (markRun (fun _ => true) f ts fs
        (staticOf cfg.threshold (sortMonitor (computeMonitor cfg fs ts)))).1 := by
  unfold update
  rw [if_neg h, hf]
  rfl

theorem update_fs_mark (cfg : Config) (fs : FSTree) (st : TState) (ts : Int) (f : String)
    (h : ¬cfg.level = 0) (hf : cfg.filename = some f) :
    (update cfg fs st ts true).fs =
      (markRun (fun _ => true) f ts fs
        (staticOf cfg.threshold (sortMonitor (computeMonitor cfg fs ts)))).2.1 := by
  unfold update
  rw [if_neg h, hf]
  rfl

theorem update_single_candidate (fn : String) (dep : Nat) (thr : Int) (cf : Bool)
    (rm : Int) (t : FSTree) (st : TState) (ts : Int)
    (ht : t.isDir = true) (hf : lookupChild t.children fn = none) :
    (update ⟨some fn, 1, dep, thr, cf⟩ (.dir rm [("c", t)]) st ts false).state.monitor
      = some [⟨["c"], candidateAge cf dep ts t (ts - t.mtime)⟩] := by
  cases t with
  | file m => simp [FSTree.isDir] at ht
  | dir tm tcs =>
    have hexp : expandLevels (.dir rm [("c", .dir tm tcs)]) 1 [[]] false [] = [["c"]] := rfl
    have hpe : pathExists (.dir rm [("c", .dir tm tcs)]) ["c", fn] = false := by
      simp only [FSTree.children] at hf
      simp [pathExists, resolve, lookupChild, hf]
    have hg : get_dirs_list (some fn) (.dir rm [("c", .dir tm tcs)]) [[]] 1 false
        = [⟨["c"], tm⟩] := by
      unfold get_dirs_list
      rw [hexp]
      simp [hpe, getmtime, resolve, lookupChild, FSTree.mtime]
    have hcm : computeMonitor ⟨some fn, 1, dep, thr, cf⟩ (.dir rm [("c", .dir tm tcs)]) ts
        = [⟨["c"], candidateAge cf dep ts (.dir tm tcs) (ts - tm)⟩] := by
      unfold computeMonitor
      rw [show (⟨some fn, 1, dep, thr, cf⟩ : Config).filename = some fn from rfl]
      rw [show (⟨some fn, 1, dep, thr, cf⟩ : Config).level = 1 from rfl]
      rw [hg]
      simp [subtreeAt, resolve, lookupChild]
    rw [update_state_ne0 ⟨some fn, 1, dep, thr, cf⟩ (.dir rm [("c", .dir tm tcs)]) st ts false (by simp)]
    rw [show (⟨some fn, 1, dep, thr, cf⟩ : Config).threshold = thr from rfl]
    rw [hcm]
    rfl

theorem nest_no_sentinel (n : Nat) (t0 x : Int) :
    lookupChild (nestDir n t0 x).children "download_complete.txt" = none := by
  cases n <;> rfl

theorem chain_no_sentinel (k : Nat) (t0 t1 : Int) :
    lookupChild (chainWithFile k t0 t1).children "download_complete.txt" = none := by
  cases k <;> rfl

/-- Claim C3: for a candidate directory of mtime `T0` holding a child file of
mtime `T1 > T0` at a level within the configured inspection depth, `update`
with file inspection enabled computes the candidate's freshness age as
`now - T1`; with file inspection disabled the child file's mtime does not
affect the age, which stays `now - T0` whatever the depth. -/
theorem C3_age_file_inspection (k dep dep2 : Nat) (t0 t1 rm rm2 thr thr2 ts : Int)
    (st st2 : TState) (hdep : k + 1 ≤ dep) (h01 : t0 < t1) :
    (update ⟨some "download_complete.txt", 1, dep, thr, true⟩
        (.dir rm [("c", chainWithFile k t0 t1)]) st ts false).state.monitor
      = some [⟨["c"], ts - t1⟩] ∧
    (update ⟨some "download_complete.txt", 1, dep2, thr2, false⟩
        (.dir rm2 [("c", chainWithFile k t0 t1)]) st2 ts false).state.monitor
      = some [⟨["c"], ts - t0⟩] := by
  constructor
  · rw [update_single_candidate _ _ _ _ _ _ _ _ (chain_isDir k t0 t1) (chain_no_sentinel k t0 t1)]
    rw [chain_mtime]
    unfold candidateAge
    rw [chain_fold_files ts t0 t1 h01 k dep hdep]
  · rw [update_single_candidate _ _ _ _ _ _ _ _ (chain_isDir k t0 t1) (chain_no_sentinel k t0 t1)]
    rw [chain_mtime]
    unfold candidateAge
    rw [chain_fold_nofiles ts t0 t1 k dep2]

/-- Witness for `C3_age_file_inspection` at a concrete input. -/
theorem C3_age_file_inspection_witness :
    (0 + 1 ≤ 1 ∧ (10 : Int) < 70) ∧
    ((update ⟨some "download_complete.txt", 1, 1, 0, true⟩
        (.dir 0 [("c", chainWithFile 0 10 70)]) ⟨none, none⟩ 100 false).state.monitor
      = some [⟨["c"], 30⟩] ∧
    (update ⟨some "download_complete.txt", 1, 5, 0, false⟩
        (.dir 0 [("c", chainWithFile 0 10 70)]) ⟨none, none⟩ 100 false).state.monitor
      = some [⟨["c"], 90⟩]) :=
  ⟨⟨by decide, by decide⟩,
    C3_age_file_inspection 0 1 5 10 70 0 0 0 0 100 ⟨none, none⟩ ⟨none, none⟩
      (by decide) (by decide)⟩

/-- Claim C4 as amended: with recursive-inspection depth D, a modification
at level D + 2 below the candidate does not affect the computed freshness
age, while a modification at level D + 1 — and, for D ≥ 1, at level D —
does affect it (the walk lists the children of the pruned roots at level D,
so mtimes through level D + 1 are examined). -/
theorem C4_depth_boundary_amended (dep : Nat) (t0 x rm1 rm2 rm3 thr1 thr2 thr3 ts : Int)
    (st1 st2 st3 : TState) (h : t0 ≤ x) :
    (update ⟨some "download_complete.txt", 1, dep, thr1, false⟩
        (.dir rm1 [("c", nestDir (dep + 2) t0 x)]) st1 ts false).state.monitor
      = some [⟨["c"], ts - t0⟩] ∧
    (update ⟨some "download_complete.txt", 1, dep, thr2, false⟩
        (.dir rm2 [("c", nestDir (dep + 1) t0 x)]) st2 ts false).state.monitor
      = some [⟨["c"], ts - x⟩] ∧
    (1 ≤ dep →
      (update ⟨some "download_complete.txt", 1, dep, thr3, false⟩
          (.dir rm3 [("c", nestDir dep t0 x)]) st3 ts false).state.monitor
        = some [⟨["c"], ts - x⟩]) := by
  refine ⟨?_, ?_, ?_⟩
  · rw [update_single_candidate _ _ _ _ _ _ _ _ (nest_isDir (dep + 2) t0 x)
      (nest_no_sentinel (dep + 2) t0 x)]
    rw [show (nestDir (dep + 2) t0 x).mtime = t0 from rfl]
    unfold candidateAge
    rw [nest_fold_below ts t0 x dep]
  · rw [update_single_candidate _ _ _ _ _ _ _ _ (nest_isDir (dep + 1) t0 x)
      (nest_no_sentinel (dep + 1) t0 x)]
    rw [show (nestDir (dep + 1) t0 x).mtime = t0 from rfl]
    unfold candidateAge
    rw [nest_fold_at_succ ts t0 x h dep]
  · intro hdep
    obtain ⟨e, rfl⟩ : ∃ e, dep = e + 1 := ⟨dep - 1, by omega⟩
    rw [update_single_candidate _ _ _ _ _ _ _ _ (nest_isDir (e + 1) t0 x)
      (nest_no_sentinel (e + 1) t0 x)]
    rw [show (nestDir (e + 1) t0 x).mtime = t0 from rfl]
    unfold candidateAge
    rw [nest_fold_within ts t0 x h (e + 1) (e + 1) (by omega) (by omega)]

/-- Witness for `C4_depth_boundary_amended` at a concrete input. -/
theorem C4_depth_boundary_amended_witness :
    ((0 : Int) ≤ 5) ∧
    ((update ⟨some "download_complete.txt", 1, 1, 0, false⟩
        (.dir 0 [("c", nestDir 3 0 5)]) ⟨none, none⟩ 100 false).state.monitor
      = some [⟨["c"], 100⟩] ∧
    (update ⟨some "download_complete.txt", 1, 1, 0, false⟩
        (.dir 0 [("c", nestDir 2 0 5)]) ⟨none, none⟩ 100 false).state.monitor
      = some [⟨["c"], 95⟩] ∧
    (1 ≤ 1 →
      (update ⟨some "download_complete.txt", 1, 1, 0, false⟩
          (.dir 0 [("c", nestDir 1 0 5)]) ⟨none, none⟩ 100 false).state.monitor
        = some [⟨["c"], 95⟩])) :=
  ⟨by decide,
    C4_depth_boundary_amended 1 0 5 0 0 0 0 0 0 100 ⟨none, none⟩ ⟨none, none⟩ ⟨none, none⟩
      (by decide)⟩


theorem mem_sortMonitor (e : Entry) (l : List Entry) : e ∈ sortMonitor l ↔ e ∈ l := by
  unfold sortMonitor
  exact (List.perm_insertionSort _ l).mem_iff

/-- Claim C5: in every scan, the static set stored by `update` is exactly the
subset of the monitor entries whose age strictly exceeds the threshold; an
entry whose age equals the threshold is classified active, not static. -/
theorem C5_threshold_boundary (cfg : Config) (fs : FSTree) (st : TState) (ts : Int)
    (mk : Bool) (hL : ¬cfg.level = 0) :
    ∃ mon stat, (update cfg fs st ts mk).state.monitor = some mon ∧
      (update cfg fs st ts mk).state.static = some stat ∧
      (∀ e : Entry, e ∈ stat ↔ e ∈ mon ∧ cfg.threshold < e.age) ∧
      (∀ e : Entry, e.age = cfg.threshold → e ∉ stat) := by
  refine ⟨sortMonitor (computeMonitor cfg fs ts),
    staticOf cfg.threshold (sortMonitor (computeMonitor cfg fs ts)), ?_, ?_, ?_, ?_⟩
  · rw [update_state_ne0 _ _ _ _ _ hL]
  · rw [update_state_ne0 _ _ _ _ _ hL]
  · intro e
    unfold staticOf
    simp [List.mem_filter]
  · intro e he hmem
    unfold staticOf at hmem
    simp [List.mem_filter] at hmem
    omega

/-- Witness for `C5_threshold_boundary` at a concrete input. -/
theorem C5_threshold_boundary_witness :
    (¬(⟨some "t", 1, 0, 100, false⟩ : Config).level = 0) ∧
    (∃ mon stat,
      (update ⟨some "t", 1, 0, 100, false⟩ (.dir 0 [("a", .dir 0 [])]) ⟨none, none⟩ 1000
          false).state.monitor = some mon ∧
      (update ⟨some "t", 1, 0, 100, false⟩ (.dir 0 [("a", .dir 0 [])]) ⟨none, none⟩ 1000
          false).state.static = some stat ∧
      (∀ e : Entry, e ∈ stat ↔ e ∈ mon ∧ (⟨some "t", 1, 0, 100, false⟩ : Config).threshold < e.age) ∧
      (∀ e : Entry, e.age = (⟨some "t", 1, 0, 100, false⟩ : Config).threshold → e ∉ stat)) :=
  ⟨by decide,
    C5_threshold_boundary ⟨some "t", 1, 0, 100, false⟩ (.dir 0 [("a", .dir 0 [])])
      ⟨none, none⟩ 1000 false (by decide)⟩

theorem get_dirs_list_some_eq (f : String) (fs : FSTree) (dirs : List Path)
    (lv : Nat) (ct : Bool) :
    get_dirs_list (some f) fs dirs lv ct
      = ((expandLevels fs lv dirs ct []).filter (fun x => !pathExists fs (x ++ [f]))).map
          (fun x => ⟨x, getmtime fs x⟩) := rfl

theorem gdl_excludes (f : String) (fs : FSTree) (d : Path) (dirs : List Path)
    (lv : Nat) (ct : Bool) (hs : pathExists fs (d ++ [f]) = true) :
    ∀ e ∈ get_dirs_list (some f) fs dirs lv ct, e.name ≠ d := by
  intro e he
  rw [get_dirs_list_some_eq] at he
  obtain ⟨x, hx, rfl⟩ := List.mem_map.1 he
  intro hname
  simp only at hname
  subst hname
  have := (List.mem_filter.1 hx).2
  rw [hs] at this
  simp at this

theorem computeMonitor_names (cfg : Config) (fs : FSTree) (ts : Int) (e : Entry)
    (he : e ∈ computeMonitor cfg fs ts) :
    ∃ e0 ∈ get_dirs_list cfg.filename fs [[]] cfg.level false, e.name = e0.name := by
  unfold computeMonitor at he
  obtain ⟨e1, he1, rfl⟩ := List.mem_map.1 he
  obtain ⟨e0, he0, rfl⟩ := List.mem_map.1 he1
  exact ⟨e0, he0, rfl⟩

/-- Claim C1: a directory that contains the configured sentinel file never
appears in the output of `get_dirs_list` nor in the monitor list produced by
a scan, whatever the directory's (or anything else's) modification times. -/
theorem C1_monotonic_exclusion (f : String) (fs : FSTree) (d : Path)
    (dirs : List Path) (levels : Nat) (cont : Bool)
    (cfg : Config) (st : TState) (ts : Int) (mk : Bool) (mon : List Entry)
    (hs : pathExists fs (d ++ [f]) = true)
    (hf : cfg.filename = some f) (hL : ¬cfg.level = 0)
    (hm : (update cfg fs st ts mk).state.monitor = some mon) :
    (∀ e ∈ get_dirs_list (some f) fs dirs levels cont, e.name ≠ d) ∧
    (∀ e ∈ mon, e.name ≠ d) := by
  refine ⟨gdl_excludes f fs d dirs levels cont hs, ?_⟩
  rw [update_state_ne0 _ _ _ _ _ hL] at hm
  simp only [TState.monitor, Option.some.injEq] at hm
  subst hm
  intro e he
  have hcm := (mem_sortMonitor e _).1 he
  obtain ⟨e0, he0, hname⟩ := computeMonitor_names cfg fs ts e hcm
  rw [hf] at he0
  rw [hname]
  exact gdl_excludes f fs d [[]] cfg.level false hs e0 he0

/-- Witness for `C1_monotonic_exclusion` at a concrete input. -/
theorem C1_monotonic_exclusion_witness :
    (pathExists (.dir 0 [("a", .dir 5 [("t", .file 7)]), ("b", .dir 5 [])]) (["a"] ++ ["t"]) = true ∧
      (⟨some "t", 1, 0, 100, false⟩ : Config).filename = some "t" ∧
      ¬(⟨some "t", 1, 0, 100, false⟩ : Config).level = 0 ∧
      (update ⟨some "t", 1, 0, 100, false⟩
          (.dir 0 [("a", .dir 5 [("t", .file 7)]), ("b", .dir 5 [])]) ⟨none, none⟩ 1000
          false).state.monitor = some [⟨["b"], 995⟩]) ∧
    ((∀ e ∈ get_dirs_list (some "t")
          (.dir 0 [("a", .dir 5 [("t", .file 7)]), ("b", .dir 5 [])]) [[]] 1 false,
        e.name ≠ ["a"]) ∧
      (∀ e ∈ [(⟨["b"], 995⟩ : Entry)], e.name ≠ ["a"])) :=
  ⟨⟨by decide, rfl, by decide, by decide⟩,
    C1_monotonic_exclusion "t" (.dir 0 [("a", .dir 5 [("t", .file 7)]), ("b", .dir 5 [])])
      ["a"] [[]] 1 false ⟨some "t", 1, 0, 100, false⟩ ⟨none, none⟩ 1000 false [⟨["b"], 995⟩]
      (by decide) rfl (by decide) (by decide)⟩


theorem leadsTo_refl (p : Path) : leadsTo p p = true := by
  induction p with
  | nil => rfl
  | cons a ps ih => simp [leadsTo, ih]

theorem leadsTo_app (p r : Path) : leadsTo p (p ++ r) = true := by
  induction p with
  | nil => rfl
  | cons a ps ih => simp [leadsTo, ih]

theorem leadsTo_length (p q : Path) (h : leadsTo p q = true) : p.length ≤ q.length := by
  induction p generalizing q with
  | nil => simp
  | cons a ps ih =>
    cases q with
    | nil => simp [leadsTo] at h
    | cons b qs =>
      simp only [leadsTo, Bool.and_eq_true] at h
      have := ih qs h.2
      simp only [List.length_cons]
      omega

theorem leadsTo_eq_of_length (p q : Path) (h : leadsTo p q = true)
    (hl : q.length ≤ p.length) : p = q := by
  induction p generalizing q with
  | nil =>
    cases q with
    | nil => rfl
    | cons b qs => simp at hl
  | cons a ps ih =>
    cases q with
    | nil => simp [leadsTo] at h
    | cons b qs =>
      simp only [leadsTo, Bool.and_eq_true, decide_eq_true_eq] at h
      simp only [List.length_cons] at hl
      rw [h.1, ih qs h.2 (by omega)]

theorem leadsTo_exists_app (p q : Path) (h : leadsTo p q = true) : ∃ r, q = p ++ r := by
  induction p generalizing q with
  | nil => exact ⟨q, rfl⟩
  | cons a ps ih =>
    cases q with
    | nil => simp [leadsTo] at h
    | cons b qs =>
      simp only [leadsTo, Bool.and_eq_true, decide_eq_true_eq] at h
      obtain ⟨r, rfl⟩ := ih qs h.2
      exact ⟨r, by rw [h.1]; rfl⟩

theorem not_leadsTo_of_length_eq (p q : Path) (hl : p.length = q.length) (hne : p ≠ q) :
    leadsTo p q = false := by
  cases h : leadsTo p q with
  | false => rfl
  | true => exact absurd (leadsTo_eq_of_length p q h (by omega)) hne

theorem leadsTo_app_left (p r q : Path) (h : leadsTo (p ++ r) q = true) :
    leadsTo p q = true := by
  induction p generalizing q with
  | nil => rfl
  | cons a ps ih =>
    cases q with
    | nil => simp [leadsTo] at h
    | cons b qs =>
      simp only [List.cons_append, leadsTo, Bool.and_eq_true] at h ⊢
      exact ⟨h.1, ih qs h.2⟩

theorem leadsTo_short (p d : Path) (x : String) (h : leadsTo p (d ++ [x]) = true)
    (hl : p.length ≤ d.length) : leadsTo p d = true := by
  induction p generalizing d with
  | nil => rfl
  | cons a ps ih =>
    cases d with
    | nil => simp at hl
    | cons b ds =>
      simp only [List.cons_append, leadsTo, Bool.and_eq_true] at h ⊢
      exact ⟨h.1, ih ds h.2 (by simp at hl; omega)⟩

theorem leadsTo_snoc (p d : Path) (x : String) (h : leadsTo p (d ++ [x]) = true) :
    leadsTo p d = true ∨ p = d ++ [x] := by
  by_cases hl : p.length ≤ d.length
  · exact Or.inl (leadsTo_short p d x h hl)
  · right
    have h1 := leadsTo_length p (d ++ [x]) h
    simp only [List.length_append, List.length_cons, List.length_nil] at h1
    exact leadsTo_eq_of_length p (d ++ [x]) h (by simp; omega)

theorem lookup_setChild_self (cs : List (String × FSTree)) (n : String) (t : FSTree) :
    lookupChild (setChild cs n t) n = some t := by
  induction cs with
  | nil => simp [setChild, lookupChild]
  | cons hd rest ih =>
    obtain ⟨m, c⟩ := hd
    by_cases h : m = n
    · subst h; simp [setChild, lookupChild]
    · simp [setChild, lookupChild, h, ih]

theorem lookup_setChild_ne (cs : List (String × FSTree)) (n x : String) (t : FSTree)
    (h : ¬x = n) : lookupChild (setChild cs n t) x = lookupChild cs x := by
  have hnx : ¬n = x := fun hx => h hx.symm
  induction cs with
  | nil =>
    simp only [setChild, lookupChild]
    rw [if_neg hnx]
  | cons hd rest ih =>
    obtain ⟨m, c⟩ := hd
    by_cases hm : m = n
    · subst hm
      simp only [setChild, if_pos rfl, lookupChild]
      rw [if_neg hnx, if_neg hnx]
    · simp only [setChild, if_neg hm]
      by_cases hx : m = x
      · simp [lookupChild, hx]
      · simp [lookupChild, hx, ih]

theorem setChild_self (cs : List (String × FSTree)) (n : String) (c : FSTree)
    (h : lookupChild cs n = some c) : setChild cs n c = cs := by
  induction cs with
  | nil => simp [lookupChild] at h
  | cons hd rest ih =>
    obtain ⟨m, c0⟩ := hd
    by_cases hm : m = n
    · subst hm
      simp only [lookupChild, if_true] at h
      injection h with h
      simp [setChild, h]
    · simp only [lookupChild, if_neg hm] at h
      simp [setChild, hm, ih h]

theorem setChild_absent (cs : List (String × FSTree)) (n : String) (t : FSTree)
    (h : lookupChild cs n = none) : setChild cs n t = cs ++ [(n, t)] := by
  induction cs with
  | nil => rfl
  | cons hd rest ih =>
    obtain ⟨m, c⟩ := hd
    by_cases hm : m = n
    · subst hm; simp [lookupChild] at h
    · simp only [lookupChild, if_neg hm] at h
      simp [setChild, hm, ih h]

theorem setChild_keys_present (cs : List (String × FSTree)) (n : String) (t c : FSTree)
    (h : lookupChild cs n = some c) :
    (setChild cs n t).map Prod.fst = cs.map Prod.fst := by
  induction cs with
  | nil => simp [lookupChild] at h
  | cons hd rest ih =>
    obtain ⟨m, c0⟩ := hd
    by_cases hm : m = n
    · subst hm; simp [setChild]
    · simp only [lookupChild, if_neg hm] at h
      simp [setChild, hm, ih h]


theorem resolve_cons (m : Int) (cs : List (String × FSTree)) (n : String) (qs : Path) :
    resolve (.dir m cs) (n :: qs)
      = match lookupChild cs n with
        | none => none
        | some c => resolve c qs := rfl

theorem modifyAt_missing (p : Path) : ∀ (fs : FSTree) (g : FSTree → FSTree),
    resolve fs p = none → modifyAt fs p g = fs := by
  induction p with
  | nil => intro fs g h; simp [resolve] at h
  | cons n ps ih =>
    intro fs g h
    cases fs with
    | file m => rfl
    | dir m cs =>
      rw [resolve_cons] at h
      cases hl : lookupChild cs n with
      | none => simp [modifyAt, hl]
      | some c =>
        rw [hl] at h
        simp only [modifyAt, hl]
        rw [ih c g h, setChild_self cs n c hl]

theorem modifyAt_resolve_app (p : Path) : ∀ (fs : FSTree) (g : FSTree → FSTree) (t : FSTree),
    resolve fs p = some t → ∀ r, resolve (modifyAt fs p g) (p ++ r) = resolve (g t) r := by
  induction p with
  | nil =>
    intro fs g t h r
    simp only [resolve] at h
    injection h with h
    subst h
    simp [modifyAt]
  | cons n ps ih =>
    intro fs g t h r
    cases fs with
    | file m => simp [resolve] at h
    | dir m cs =>
      rw [resolve_cons] at h
      cases hl : lookupChild cs n with
      | none => rw [hl] at h; exact absurd h (by simp)
      | some c =>
        rw [hl] at h
        simp only [modifyAt, hl, List.cons_append]
        rw [resolve_cons, lookup_setChild_self]
        exact ih c g t h r

theorem modifyAt_resolve_off (p : Path) : ∀ (fs : FSTree) (g : FSTree → FSTree) (q : Path),
    leadsTo p q = false → leadsTo q p = false →
    resolve (modifyAt fs p g) q = resolve fs q := by
  induction p with
  | nil => intro fs g q h1 _; simp [leadsTo] at h1
  | cons n ps ih =>
    intro fs g q h1 h2
    cases q with
    | nil => simp [leadsTo] at h2
    | cons b qs =>
      cases fs with
      | file m => rfl
      | dir m cs =>
        cases hl : lookupChild cs n with
        | none => simp [modifyAt, hl]
        | some c =>
          simp only [modifyAt, hl]
          by_cases hb : b = n
          · subst hb
            have hn : ∀ y : String, (decide (y = y)) = true := fun y => by simp
            simp only [leadsTo, hn, Bool.true_and] at h1 h2
            rw [resolve_cons, resolve_cons, lookup_setChild_self, hl]
            exact ih c g qs h1 h2
          · rw [resolve_cons, resolve_cons, lookup_setChild_ne cs n b _ hb]

theorem modifyAt_above_proj (q : Path) : ∀ (fs : FSTree) (g : FSTree → FSTree) (p : Path),
    leadsTo q p = true → ¬q = p →
    listdir (modifyAt fs p g) q = listdir fs q ∧
    getmtime (modifyAt fs p g) q = getmtime fs q ∧
    isdir (modifyAt fs p g) q = isdir fs q := by
  induction q with
  | nil =>
    intro fs g p h1 h2
    cases p with
    | nil => exact absurd rfl h2
    | cons n ps =>
      cases fs with
      | file m => exact ⟨rfl, rfl, rfl⟩
      | dir m cs =>
        cases hl : lookupChild cs n with
        | none => simp [modifyAt, hl]
        | some c =>
          simp only [modifyAt, hl]
          refine ⟨?_, rfl, rfl⟩
          simp only [listdir, resolve]
          rw [setChild_keys_present cs n _ c hl]
  | cons b qs ih =>
    intro fs g p h1 h2
    cases p with
    | nil => simp [leadsTo] at h1
    | cons n ps =>
      simp only [leadsTo, Bool.and_eq_true, decide_eq_true_eq] at h1
      obtain ⟨rfl, h1⟩ := h1
      have hqp : ¬qs = ps := fun hq => h2 (by rw [hq])
      cases fs with
      | file m => exact ⟨rfl, rfl, rfl⟩
      | dir m cs =>
        cases hl : lookupChild cs b with
        | none => simp [modifyAt, hl]
        | some c =>
          simp only [modifyAt, hl]
          have hres : ∀ u, resolve (.dir m (setChild cs b u)) (b :: qs) = resolve u qs := by
            intro u
            rw [resolve_cons, lookup_setChild_self]
          have hres2 : resolve (.dir m cs) (b :: qs) = resolve c qs := by
            rw [resolve_cons, hl]
          obtain ⟨e1, e2, e3⟩ := ih c g ps h1 hqp
          refine ⟨?_, ?_, ?_⟩
          · simp only [listdir, hres, hres2]
            simpa [listdir] using e1
          · simp only [getmtime, hres, hres2]
            simpa [getmtime] using e2
          · simp only [isdir, hres, hres2]
            simpa [isdir] using e3


theorem resolve_append (p : Path) : ∀ (fs : FSTree) (r : Path),
    resolve fs (p ++ r) = (resolve fs p).bind (fun u => resolve u r) := by
  induction p with
  | nil => intro fs r; simp [resolve]
  | cons n ps ih =>
    intro fs r
    cases fs with
    | file m => simp [resolve]
    | dir m cs =>
      rw [List.cons_append, resolve_cons, resolve_cons]
      cases hl : lookupChild cs n with
      | none => simp
      | some c => simp [ih]

theorem pathExists_app_left (t : FSTree) (a b : Path)
    (h : pathExists t (a ++ b) = true) : pathExists t a = true := by
  unfold pathExists at h ⊢
  rw [resolve_append] at h
  cases hr : resolve t a with
  | none => rw [hr] at h; simp at h
  | some u => rfl

theorem resolve_below (fs : FSTree) (p : Path) (pm : Int) (pcs : List (String × FSTree))
    (hA : resolve fs p = some (.dir pm pcs)) (r : Path) :
    resolve fs (p ++ r) = resolve (.dir pm pcs) r := by
  rw [resolve_append, hA]
  rfl

theorem createFile_below (fs : FSTree) (p : Path) (f : String) (ts : Int)
    (pm : Int) (pcs : List (String × FSTree))
    (hA : resolve fs p = some (.dir pm pcs)) (r : Path) :
    resolve (createFile fs p f ts) (p ++ r)
      = resolve (.dir ts (setChild pcs f (.file ts))) r := by
  unfold createFile
  exact modifyAt_resolve_app p fs _ _ hA r

theorem sentinel_child_not_dir (fs : FSTree) (p : Path) (f : String)
    (pm : Int) (pcs : List (String × FSTree))
    (hA : resolve fs p = some (.dir pm pcs))
    (hB : isdir fs (p ++ [f]) = false) :
    ∀ c, lookupChild pcs f = some c → c.isDir = false := by
  intro c hc
  unfold isdir at hB
  rw [resolve_below fs p pm pcs hA [f], resolve_cons, hc] at hB
  cases c with
  | dir m cs => simp [resolve] at hB
  | file m => rfl

theorem createFile_below_ne (fs : FSTree) (p : Path) (f : String) (ts : Int)
    (pm : Int) (pcs : List (String × FSTree))
    (hA : resolve fs p = some (.dir pm pcs))
    (x : String) (rs : Path) (hx : ¬x = f) :
    resolve (createFile fs p f ts) (p ++ x :: rs) = resolve fs (p ++ x :: rs) := by
  rw [createFile_below fs p f ts pm pcs hA, resolve_below fs p pm pcs hA]
  rw [resolve_cons, resolve_cons, lookup_setChild_ne pcs f x _ hx]

theorem createFile_at_sentinel (fs : FSTree) (p : Path) (f : String) (ts : Int)
    (pm : Int) (pcs : List (String × FSTree))
    (hA : resolve fs p = some (.dir pm pcs)) (rs : Path) :
    resolve (createFile fs p f ts) (p ++ f :: rs)
      = match rs with
        | [] => some (.file ts)
        | _ :: _ => none := by
  rw [createFile_below fs p f ts pm pcs hA, resolve_cons, lookup_setChild_self]
  cases rs with
  | nil => rfl
  | cons y ys => rfl

theorem createFile_isdir (fs : FSTree) (p : Path) (f : String) (ts : Int)
    (pm : Int) (pcs : List (String × FSTree))
    (hA : resolve fs p = some (.dir pm pcs))
    (hB : isdir fs (p ++ [f]) = false) :
    ∀ q, isdir (createFile fs p f ts) q = isdir fs q := by
  intro q
  by_cases hpq : leadsTo p q = true
  · obtain ⟨r, rfl⟩ := leadsTo_exists_app p q hpq
    cases r with
    | nil =>
      unfold isdir
      rw [createFile_below fs p f ts pm pcs hA [], resolve_below fs p pm pcs hA []]
      rfl
    | cons x rs =>
      by_cases hx : x = f
      · unfold isdir
        rw [hx]
        rw [createFile_at_sentinel fs p f ts pm pcs hA rs]
        rw [resolve_below fs p pm pcs hA, resolve_cons]
        cases rs with
        | nil =>
          cases hl : lookupChild pcs f with
          | none => rfl
          | some c =>
            have := sentinel_child_not_dir fs p f pm pcs hA hB c hl
            cases c with
            | dir m2 cs2 => simp [FSTree.isDir] at this
            | file m2 => rfl
        | cons y ys =>
          cases hl : lookupChild pcs f with
          | none => rfl
          | some c =>
            have := sentinel_child_not_dir fs p f pm pcs hA hB c hl
            cases c with
            | dir m2 cs2 => simp [FSTree.isDir] at this
            | file m2 => rfl
      · unfold isdir
        rw [createFile_below_ne fs p f ts pm pcs hA x rs hx]
  · by_cases hqp : leadsTo q p = true
    · have hne : ¬q = p := fun he => hpq (he ▸ leadsTo_refl p)
      exact (modifyAt_above_proj q fs _ p hqp hne).2.2
    · unfold isdir
      rw [show createFile fs p f ts = modifyAt fs p _ from rfl]
      rw [modifyAt_resolve_off p fs _ q (Bool.not_eq_true _ ▸ hpq) (Bool.not_eq_true _ ▸ hqp)]


theorem createFile_listdir_ne (fs : FSTree) (p : Path) (f : String) (ts : Int)
    (pm : Int) (pcs : List (String × FSTree))
    (hA : resolve fs p = some (.dir pm pcs))
    (hB : isdir fs (p ++ [f]) = false) :
    ∀ q, ¬q = p → listdir (createFile fs p f ts) q = listdir fs q := by
  intro q hne
  by_cases hpq : leadsTo p q = true
  · obtain ⟨r, rfl⟩ := leadsTo_exists_app p q hpq
    cases r with
    | nil => exact absurd (List.append_nil p) hne
    | cons x rs =>
      by_cases hx : x = f
      · unfold listdir
        rw [hx]
        rw [createFile_at_sentinel fs p f ts pm pcs hA rs]
        rw [resolve_below fs p pm pcs hA, resolve_cons]
        cases rs with
        | nil =>
          cases hl : lookupChild pcs f with
          | none => rfl
          | some c =>
            have := sentinel_child_not_dir fs p f pm pcs hA hB c hl
            cases c with
            | dir m2 cs2 => simp [FSTree.isDir] at this
            | file m2 => rfl
        | cons y ys =>
          cases hl : lookupChild pcs f with
          | none => rfl
          | some c =>
            have := sentinel_child_not_dir fs p f pm pcs hA hB c hl
            cases c with
            | dir m2 cs2 => simp [FSTree.isDir] at this
            | file m2 => rfl
      · unfold listdir
        rw [createFile_below_ne fs p f ts pm pcs hA x rs hx]
  · by_cases hqp : leadsTo q p = true
    · exact (modifyAt_above_proj q fs _ p hqp hne).1
    · unfold listdir
      rw [show createFile fs p f ts = modifyAt fs p _ from rfl]
      rw [modifyAt_resolve_off p fs _ q (Bool.not_eq_true _ ▸ hpq) (Bool.not_eq_true _ ▸ hqp)]

theorem createFile_listdir_self (fs : FSTree) (p : Path) (f : String) (ts : Int)
    (pm : Int) (pcs : List (String × FSTree))
    (hA : resolve fs p = some (.dir pm pcs)) :
    listdir (createFile fs p f ts) p = listdir fs p ∨
    listdir (createFile fs p f ts) p = listdir fs p ++ [f] := by
  have h1 : listdir (createFile fs p f ts) p
      = (setChild pcs f (.file ts)).map Prod.fst := by
    unfold listdir
    have := createFile_below fs p f ts pm pcs hA []
    rw [List.append_nil] at this
    rw [this]
    rfl
  have h2 : listdir fs p = pcs.map Prod.fst := by
    unfold listdir
    rw [hA]
  cases hl : lookupChild pcs f with
  | none =>
    right
    rw [h1, h2, setChild_absent pcs f _ hl, List.map_append]
    rfl
  | some c =>
    left
    rw [h1, h2, setChild_keys_present pcs f _ c hl]

theorem createFile_subdirs (fs : FSTree) (p : Path) (f : String) (ts : Int)
    (pm : Int) (pcs : List (String × FSTree))
    (hA : resolve fs p = some (.dir pm pcs))
    (hB : isdir fs (p ++ [f]) = false) :
    ∀ d, subdirsOf (createFile fs p f ts) d = subdirsOf fs d := by
  intro d
  have hpred : (fun x => isdir (createFile fs p f ts) (d ++ [x]))
      = (fun x => isdir fs (d ++ [x])) :=
    funext fun x => createFile_isdir fs p f ts pm pcs hA hB (d ++ [x])
  unfold subdirsOf
  rw [hpred]
  by_cases hd : d = p
  · subst hd
    cases createFile_listdir_self fs d f ts pm pcs hA with
    | inl h => rw [h]
    | inr h =>
      rw [h, List.filter_append]
      have hf : List.filter (fun x => isdir fs (d ++ [x])) [f] = [] := by
        simp [List.filter, hB]
      rw [hf, List.append_nil]
  · rw [createFile_listdir_ne fs p f ts pm pcs hA hB d hd]

theorem createFile_exists_mono (fs : FSTree) (p : Path) (f : String) (ts : Int)
    (pm : Int) (pcs : List (String × FSTree))
    (hA : resolve fs p = some (.dir pm pcs))
    (hB : isdir fs (p ++ [f]) = false) :
    ∀ r, pathExists fs r = true → pathExists (createFile fs p f ts) r = true := by
  intro r hr
  by_cases hpq : leadsTo p r = true
  · obtain ⟨rr, rfl⟩ := leadsTo_exists_app p r hpq
    cases rr with
    | nil =>
      unfold pathExists
      rw [createFile_below fs p f ts pm pcs hA []]
      rfl
    | cons x rs =>
      by_cases hx : x = f
      · unfold pathExists at hr ⊢
        rw [hx] at hr ⊢
        rw [createFile_at_sentinel fs p f ts pm pcs hA rs]
        rw [resolve_below fs p pm pcs hA, resolve_cons] at hr
        cases hl : lookupChild pcs f with
        | none => rw [hl] at hr; simp at hr
        | some c =>
          rw [hl] at hr
          cases rs with
          | nil => rfl
          | cons y ys =>
            have hnd := sentinel_child_not_dir fs p f pm pcs hA hB c hl
            cases c with
            | dir m2 cs2 => simp [FSTree.isDir] at hnd
            | file m2 => simp [resolve] at hr
      · unfold pathExists at hr ⊢
        rw [createFile_below_ne fs p f ts pm pcs hA x rs hx]
        exact hr
  · by_cases hqp : leadsTo r p = true
    · obtain ⟨rr, hp⟩ := leadsTo_exists_app r p hqp
      have h1 : pathExists (createFile fs p f ts) p = true := by
        unfold pathExists
        have h2 := createFile_below fs p f ts pm pcs hA []
        rw [List.append_nil] at h2
        rw [h2]
        rfl
      nth_rewrite 2 [hp] at h1
      exact pathExists_app_left _ r rr h1
    · unfold pathExists at hr ⊢
      rw [show createFile fs p f ts = modifyAt fs p _ from rfl]
      rw [modifyAt_resolve_off p fs _ r (Bool.not_eq_true _ ▸ hpq) (Bool.not_eq_true _ ▸ hqp)]
      exact hr


theorem createFile_sentinel (fs : FSTree) (p : Path) (f : String) (ts : Int)
    (pm : Int) (pcs : List (String × FSTree))
    (hA : resolve fs p = some (.dir pm pcs)) :
    pathExists (createFile fs p f ts) (p ++ [f]) = true := by
  unfold pathExists
  rw [createFile_at_sentinel fs p f ts pm pcs hA []]
  rfl

theorem createFile_new (fs : FSTree) (p : Path) (f : String) (ts : Int)
    (pm : Int) (pcs : List (String × FSTree))
    (hA : resolve fs p = some (.dir pm pcs)) :
    ∀ r, pathExists (createFile fs p f ts) r = true →
      pathExists fs r = true ∨ r = p ++ [f] := by
  intro r hr
  by_cases hpq : leadsTo p r = true
  · obtain ⟨rr, rfl⟩ := leadsTo_exists_app p r hpq
    cases rr with
    | nil =>
      left
      rw [List.append_nil]
      unfold pathExists
      rw [hA]
      rfl
    | cons x rs =>
      by_cases hx : x = f
      · rw [hx] at hr ⊢
        unfold pathExists at hr
        rw [createFile_at_sentinel fs p f ts pm pcs hA rs] at hr
        cases rs with
        | nil => exact Or.inr rfl
        | cons y ys => simp at hr
      · left
        unfold pathExists at hr ⊢
        rw [createFile_below_ne fs p f ts pm pcs hA x rs hx] at hr
        exact hr
  · by_cases hqp : leadsTo r p = true
    · left
      obtain ⟨rr, hp⟩ := leadsTo_exists_app r p hqp
      have h1 : pathExists fs p = true := by
        unfold pathExists
        rw [hA]
        rfl
      rw [hp] at h1
      exact pathExists_app_left fs r rr h1
    · left
      unfold pathExists at hr ⊢
      rw [show createFile fs p f ts = modifyAt fs p _ from rfl] at hr
      rw [modifyAt_resolve_off p fs _ r (Bool.not_eq_true _ ▸ hpq)
        (Bool.not_eq_true _ ▸ hqp)] at hr
      exact hr

theorem createFile_resolve_off (fs : FSTree) (p : Path) (f : String) (ts : Int)
    (q : Path) (h1 : leadsTo p q = false) (h2 : leadsTo q p = false) :
    resolve (createFile fs p f ts) q = resolve fs q := by
  rw [show createFile fs p f ts = modifyAt fs p _ from rfl]
  exact modifyAt_resolve_off p fs _ q h1 h2

theorem isdir_resolve (fs : FSTree) (q : Path) (h : isdir fs q = true) :
    ∃ m cs, resolve fs q = some (.dir m cs) := by
  unfold isdir at h
  cases hr : resolve fs q with
  | none => rw [hr] at h; simp at h
  | some u =>
    cases u with
    | dir m cs => exact ⟨m, cs, rfl⟩
    | file m => rw [hr] at h; simp at h


theorem isdir_imp_exists (fs : FSTree) (q : Path) (h : isdir fs q = true) :
    pathExists fs q = true := by
  obtain ⟨m, cs, hr⟩ := isdir_resolve fs q h
  unfold pathExists
  rw [hr]
  rfl

theorem markRun_nil (c : Path → Bool) (f : String) (ts : Int) (fs : FSTree) :
    markRun c f ts fs [] = ([], fs, none) := rfl

theorem markRun_true_cons (f : String) (ts : Int) (fs : FSTree) (e : Entry)
    (rest : List Entry) :
    markRun (fun _ => true) f ts fs (e :: rest)
      = ((e.name ++ [f]) :: (markRun (fun _ => true) f ts (createFile fs e.name f ts) rest).1,
         (markRun (fun _ => true) f ts (createFile fs e.name f ts) rest).2) := by
  simp [markRun]

theorem markRun_props (f : String) (ts : Int) :
    ∀ (l : List Entry) (fs : FSTree),
      (∀ e ∈ l, isdir fs e.name = true ∧ isdir fs (e.name ++ [f]) = false) →
      (∀ q, isdir (markRun (fun _ => true) f ts fs l).2.1 q = isdir fs q) ∧
      (∀ d, subdirsOf (markRun (fun _ => true) f ts fs l).2.1 d = subdirsOf fs d) ∧
      (∀ r, pathExists fs r = true →
        pathExists (markRun (fun _ => true) f ts fs l).2.1 r = true) ∧
      (∀ e ∈ l, pathExists (markRun (fun _ => true) f ts fs l).2.1 (e.name ++ [f]) = true) ∧
      (∀ q, (∀ e ∈ l, leadsTo e.name q = false ∧ leadsTo q e.name = false) →
        resolve (markRun (fun _ => true) f ts fs l).2.1 q = resolve fs q) ∧
      (∀ r, pathExists (markRun (fun _ => true) f ts fs l).2.1 r = true →
        pathExists fs r = true ∨ ∃ e ∈ l, r = e.name ++ [f]) := by
  intro l
  induction l with
  | nil =>
    intro fs _
    rw [markRun_nil]
    refine ⟨fun q => rfl, fun d => rfl, fun r hr => hr, fun e he => absurd he (by simp),
      fun q _ => rfl, fun r hr => Or.inl hr⟩
  | cons e rest ih =>
    intro fs hyp
    have he := hyp e (List.mem_cons_self e rest)
    obtain ⟨pm, pcs, hA⟩ := isdir_resolve fs e.name he.1
    have hB := he.2
    have hrest : ∀ e2 ∈ rest, isdir (createFile fs e.name f ts) e2.name = true ∧
        isdir (createFile fs e.name f ts) (e2.name ++ [f]) = false := by
      intro e2 he2
      have h2 := hyp e2 (List.mem_cons_of_mem e he2)
      rw [createFile_isdir fs e.name f ts pm pcs hA hB,
        createFile_isdir fs e.name f ts pm pcs hA hB]
      exact h2
    obtain ⟨ih1, ih2, ih3, ih4, ih5, ih6⟩ := ih (createFile fs e.name f ts) hrest
    rw [markRun_true_cons]
    refine ⟨?_, ?_, ?_, ?_, ?_, ?_⟩
    · intro q
      rw [ih1 q, createFile_isdir fs e.name f ts pm pcs hA hB]
    · intro d
      rw [ih2 d, createFile_subdirs fs e.name f ts pm pcs hA hB]
    · intro r hr
      exact ih3 r (createFile_exists_mono fs e.name f ts pm pcs hA hB r hr)
    · intro e2 he2
      rcases List.mem_cons.1 he2 with h2 | h2
      · subst h2
        exact ih3 _ (createFile_sentinel fs e2.name f ts pm pcs hA)
      · exact ih4 e2 h2
    · intro q hq
      have hqe := hq e (List.mem_cons_self e rest)
      rw [ih5 q (fun e2 he2 => hq e2 (List.mem_cons_of_mem e he2))]
      exact createFile_resolve_off fs e.name f ts q hqe.1 hqe.2
    · intro r hr
      rcases ih6 r hr with h1 | h1
      · rcases createFile_new fs e.name f ts pm pcs hA r h1 with h2 | h2
        · exact Or.inl h2
        · exact Or.inr ⟨e, List.mem_cons_self e rest, h2⟩
      · obtain ⟨e2, he2, h2⟩ := h1
        exact Or.inr ⟨e2, List.mem_cons_of_mem e he2, h2⟩


theorem expandLevels_congr (fsA fsB : FSTree)
    (h : ∀ d, subdirsOf fsA d = subdirsOf fsB d) :
    ∀ (n : Nat) (dl : List Path) (c : Bool) (out : List Path),
      expandLevels fsA n dl c out = expandLevels fsB n dl c out := by
  have hfun : subdirsOf fsA = subdirsOf fsB := funext h
  intro n
  induction n with
  | zero => intro dl c out; rfl
  | succ n ih =>
    intro dl c out
    simp only [expandLevels, hfun, ih]

theorem subdirsOf_mem (fs : FSTree) (d x : Path) (hx : x ∈ subdirsOf fs d) :
    isdir fs x = true ∧ x.length = d.length + 1 := by
  unfold subdirsOf at hx
  obtain ⟨y, hy, rfl⟩ := List.mem_map.1 hx
  have hfil := (List.mem_filter.1 hy).2
  exact ⟨hfil, by simp⟩

theorem expandLevels_mem (fs : FSTree) :
    ∀ (n : Nat) (dl : List Path) (out : List Path) (k : Nat),
      (∀ d ∈ dl, d.length = k) →
      (∀ y ∈ out, isdir fs y = true ∧ y.length = k + n) →
      ∀ x ∈ expandLevels fs n dl false out, isdir fs x = true ∧ x.length = k + n := by
  intro n
  induction n with
  | zero =>
    intro dl out k _ hout x hx
    exact hout x hx
  | succ n ih =>
    intro dl out k hdl hout x hx
    rw [expandLevels] at hx
    by_cases hil : dl.flatMap (subdirsOf fs) = []
    · rw [if_pos hil] at hx
      exact hout x hx
    · rw [if_neg hil] at hx
      rw [if_neg (by simp : ¬false = true)] at hx
      have hil_mem : ∀ z ∈ dl.flatMap (subdirsOf fs), isdir fs z = true ∧ z.length = k + 1 := by
        intro z hz
        obtain ⟨d, hd, hzd⟩ := List.mem_flatMap.1 hz
        have := subdirsOf_mem fs d z hzd
        rw [hdl d hd] at this
        exact this
      have hout2 : ∀ y ∈ (if n = 0 then dl.flatMap (subdirsOf fs) else out),
          isdir fs y = true ∧ y.length = (k + 1) + n := by
        intro y hy
        by_cases hn : n = 0
        · rw [if_pos hn] at hy
          have := hil_mem y hy
          exact ⟨this.1, by omega⟩
        · rw [if_neg hn] at hy
          have := hout y hy
          exact ⟨this.1, by omega⟩
      have := ih (dl.flatMap (subdirsOf fs)) _ (k + 1)
        (fun d hd => (hil_mem d hd).2) hout2 x hx
      exact ⟨this.1, by omega⟩


theorem mem_computeMonitor (cfg : Config) (fs : FSTree) (ts : Int) (f : String)
    (hf : cfg.filename = some f) (e : Entry) :
    e ∈ computeMonitor cfg fs ts ↔
      ∃ x, x ∈ (expandLevels fs cfg.level [[]] false []).filter
          (fun x => !pathExists fs (x ++ [f])) ∧
        e = ⟨x, candidateAge cfg.files cfg.depth ts (subtreeAt fs x)
              (ts - getmtime fs x)⟩ := by
  unfold computeMonitor
  rw [hf, get_dirs_list_some_eq]
  constructor
  · intro he
    obtain ⟨e1, he1, rfl⟩ := List.mem_map.1 he
    obtain ⟨e0, he0, rfl⟩ := List.mem_map.1 he1
    obtain ⟨x, hx, rfl⟩ := List.mem_map.1 he0
    exact ⟨x, hx, rfl⟩
  · rintro ⟨x, hx, rfl⟩
    exact List.mem_map.2 ⟨⟨x, ts - getmtime fs x⟩,
      List.mem_map.2 ⟨⟨x, getmtime fs x⟩, List.mem_map.2 ⟨x, hx, rfl⟩, rfl⟩, rfl⟩


/-- Claim C2: with a sentinel filename configured and marking enabled,
running `update` twice at the same reference instant — the only filesystem
change between the runs being the sentinel files written by the first run —
yields an empty result list from the second run: every static directory now
carries a sentinel and is excluded, and every surviving monitored directory
keeps its age, which is at most the threshold. -/
theorem C2_idempotent_second_scan (cfg : Config) (fs : FSTree) (st st2 : TState)
    (ts : Int) (f : String) (hf : cfg.filename = some f) (hL : ¬cfg.level = 0) :
    (update cfg ((update cfg fs st ts true).fs) st2 ts true).ret = .tombs [] := by
  have hno : ∀ q, pathExists fs q = false → isdir fs q = false := by
    intro q hq
    cases hi : isdir fs q with
    | false => rfl
    | true =>
      have h := isdir_imp_exists fs q hi
      rw [hq] at h
      exact absurd h (by simp)
  have hstat : ∀ e ∈ staticOf cfg.threshold (sortMonitor (computeMonitor cfg fs ts)),
      isdir fs e.name = true ∧ e.name.length = cfg.level ∧
      pathExists fs (e.name ++ [f]) = false := by
    intro e he
    have hmem := List.mem_filter.1 he
    have hmon := (mem_sortMonitor e _).1 hmem.1
    obtain ⟨x, hx, hex⟩ := (mem_computeMonitor cfg fs ts f hf e).1 hmon
    have hxf := List.mem_filter.1 hx
    have hxprops := expandLevels_mem fs cfg.level [[]] [] 0
      (fun d hd => by simp at hd; rw [hd]; rfl)
      (fun y hy => absurd hy (by simp)) x hxf.1
    have hxsent : pathExists fs (x ++ [f]) = false := by
      have h2 := hxf.2
      simpa using h2
    rw [hex]
    exact ⟨hxprops.1, by show List.length x = cfg.level; have h3 := hxprops.2; omega, hxsent⟩
  obtain ⟨mk1, mk2, mk3, mk4, mk5, mk6⟩ :=
    markRun_props f ts (staticOf cfg.threshold (sortMonitor (computeMonitor cfg fs ts))) fs
      (fun e he => ⟨(hstat e he).1, hno _ (hstat e he).2.2⟩)
  rw [update_fs_mark cfg fs st ts f hL hf]
  rw [update_ret_mark cfg _ st2 ts f hL hf]
  set fs2 := (markRun (fun _ => true) f ts fs
    (staticOf cfg.threshold (sortMonitor (computeMonitor cfg fs ts)))).2.1 with hfs2
  suffices hs2 : staticOf cfg.threshold (sortMonitor (computeMonitor cfg fs2 ts)) = [] by
    rw [hs2, markRun_nil]
  unfold staticOf
  rw [List.filter_eq_nil_iff]
  intro e he
  have hmon2 := (mem_sortMonitor e _).1 he
  obtain ⟨x, hx, hex⟩ := (mem_computeMonitor cfg fs2 ts f hf e).1 hmon2
  have hE2 : expandLevels fs2 cfg.level [[]] false [] = expandLevels fs cfg.level [[]] false [] :=
    expandLevels_congr fs2 fs mk2 cfg.level [[]] false []
  rw [hE2] at hx
  have hxf := List.mem_filter.1 hx
  have hx2sent : pathExists fs2 (x ++ [f]) = false := by
    have h2 := hxf.2
    simpa using h2
  have hxprops := expandLevels_mem fs cfg.level [[]] [] 0
    (fun d hd => by simp at hd; rw [hd]; rfl)
    (fun y hy => absurd hy (by simp)) x hxf.1
  have hxnot : ∀ e1 ∈ staticOf cfg.threshold (sortMonitor (computeMonitor cfg fs ts)),
      ¬e1.name = x := by
    intro e1 he1 heq
    have h4 := mk4 e1 he1
    rw [heq] at h4
    rw [h4] at hx2sent
    simp at hx2sent
  have hinc : ∀ e1 ∈ staticOf cfg.threshold (sortMonitor (computeMonitor cfg fs ts)),
      leadsTo e1.name x = false ∧ leadsTo x e1.name = false := by
    intro e1 he1
    have h1 := (hstat e1 he1).2.1
    have h2 := hxprops.2
    have hne := hxnot e1 he1
    exact ⟨not_leadsTo_of_length_eq _ _ (by omega) hne,
      not_leadsTo_of_length_eq _ _ (by omega) (fun hh => hne hh.symm)⟩
  have hres : resolve fs2 x = resolve fs x := mk5 x hinc
  have hsent1 : pathExists fs (x ++ [f]) = false := by
    cases hp : pathExists fs (x ++ [f]) with
    | false => rfl
    | true =>
      have h3 := mk3 (x ++ [f]) hp
      rw [h3] at hx2sent
      simp at hx2sent
  have hage : candidateAge cfg.files cfg.depth ts (subtreeAt fs2 x) (ts - getmtime fs2 x)
      = candidateAge cfg.files cfg.depth ts (subtreeAt fs x) (ts - getmtime fs x) := by
    unfold subtreeAt getmtime
    rw [hres]
  simp only [decide_eq_true_eq]
  intro hlt
  rw [hex] at hlt
  simp only at hlt
  rw [hage] at hlt
  have hm1 : (⟨x, candidateAge cfg.files cfg.depth ts (subtreeAt fs x)
      (ts - getmtime fs x)⟩ : Entry) ∈ computeMonitor cfg fs ts :=
    (mem_computeMonitor cfg fs ts f hf _).2
      ⟨x, List.mem_filter.2 ⟨hxf.1, by simp [hsent1]⟩, rfl⟩
  have hm2 : (⟨x, candidateAge cfg.files cfg.depth ts (subtreeAt fs x)
      (ts - getmtime fs x)⟩ : Entry)
      ∈ staticOf cfg.threshold (sortMonitor (computeMonitor cfg fs ts)) := by
    apply List.mem_filter.2
    exact ⟨(mem_sortMonitor _ _).2 hm1, by simp only [decide_eq_true_eq]; exact hlt⟩
  exact hxnot _ hm2 rfl

/-- Witness for `C2_idempotent_second_scan` at a concrete input. -/
theorem C2_idempotent_second_scan_witness :
    ((⟨some "t", 1, 0, 100, false⟩ : Config).filename = some "t" ∧
      ¬(⟨some "t", 1, 0, 100, false⟩ : Config).level = 0) ∧
    (update ⟨some "t", 1, 0, 100, false⟩
        ((update ⟨some "t", 1, 0, 100, false⟩
            (.dir 0 [("a", .dir 0 []), ("b", .dir 950 [])]) ⟨none, none⟩ 1000 true).fs)
        ⟨none, none⟩ 1000 true).ret = .tombs [] :=
  ⟨⟨rfl, by decide⟩,
    C2_idempotent_second_scan ⟨some "t", 1, 0, 100, false⟩
      (.dir 0 [("a", .dir 0 []), ("b", .dir 950 [])]) ⟨none, none⟩ ⟨none, none⟩ 1000 "t"
      rfl (by decide)⟩

end Tombstone
